import Mathlib

set_option maxHeartbeats 1000000

/-!
Verification development for the vrc_oscquery crate.

Strings are modelled as lists of characters (`Str`), `HashMap<String, OscNode>`
as an association list (the `Contents` type below), and the mutating Rust
functions from `src/node.rs` as pure tree-transforming functions.  The
discovery loop from `src/client.rs` is modelled as a function over the stream
of receive outcomes it observes, and the HTTP responder from `src/server.rs`
as a pure function of the query string and the shared state.
-/

namespace VrcOscQuery

/-- Strings, modelled as lists of characters. -/
abbrev Str := List Char

/-- The `Access` enum from node.rs (`repr(u8)`, serialized by `Serialize_repr`). -/
inductive Access where
  | none
  | read
  | write
  | readWrite
deriving DecidableEq, Repr

/-- Numeric value of an `Access` as emitted by `Serialize_repr` (`repr(u8)`). -/
def Access.toNat : Access → Nat
  | .none => 0
  | .read => 1
  | .write => 2
  | .readWrite => 3

mutual
/-- JSON values, the external serde_json collaborator. -/
inductive Json where
  | null : Json
  | num : Nat → Json
  | str : Str → Json
  | obj : JFields → Json

/-- The field list of a JSON object (a list of name/value pairs). -/
inductive JFields where
  | nil : JFields
  | cons (key : Str) (val : Json) (rest : JFields) : JFields
end

mutual
/-- The `OscNode` struct from node.rs: full path, optional access, optional
type tag, optional value, and the children map (`CONTENTS`). -/
inductive OscNode where
  | mk (full_path : Str) (access : Option Access) (typetag : Option Str)
       (value : Option Json) (contents : Contents) : OscNode

/-- The children map of a node, modelling `HashMap<String, OscNode>` as an
association list with distinct keys. -/
inductive Contents where
  | nil : Contents
  | cons (key : Str) (node : OscNode) (rest : Contents) : Contents
end

def OscNode.full_path : OscNode → Str
  | .mk fp _ _ _ _ => fp

def OscNode.access : OscNode → Option Access
  | .mk _ a _ _ _ => a

def OscNode.typetag : OscNode → Option Str
  | .mk _ _ t _ _ => t

def OscNode.value : OscNode → Option Json
  | .mk _ _ _ v _ => v

def OscNode.contents : OscNode → Contents
  | .mk _ _ _ _ c => c

/-- Concatenation of two children maps. -/
def Contents.append : Contents → Contents → Contents
  | .nil, m => m
  | .cons k v rest, m => .cons k v (Contents.append rest m)

/-- Membership of a key/node pair in a children map. -/
def Contents.MemKV (k : Str) (c : OscNode) : Contents → Prop
  | .nil => False
  | .cons k1 c1 rest => (k = k1 ∧ c = c1) ∨ Contents.MemKV k c rest

/-- Lookup in the children map (`HashMap::get` / the map side of `entry`). -/
def lookupEntry : Contents → Str → Option OscNode
  | .nil, _ => Option.none
  | .cons k1 v rest, k => if k1 = k then some v else lookupEntry rest k

/-- Model of `contents.entry(key).or_insert_with(d)` followed by continuing
with `f` on the entry: if the key is present its value is transformed by `f`,
otherwise `(k, f d)` is added. -/
def modifyEntry (m : Contents) (k : Str) (d : OscNode) (f : OscNode → OscNode) :
    Contents :=
  match m with
  | .nil => .cons k (f d) .nil
  | .cons k1 v rest =>
    if k1 = k then .cons k1 (f v) rest else .cons k1 v (modifyEntry rest k d f)

/-- Model of `HashMap::insert`: replace the value at the key, or add it. -/
def insertEntry (m : Contents) (k : Str) (v : OscNode) : Contents :=
  match m with
  | .nil => .cons k v .nil
  | .cons k1 v1 rest =>
    if k1 = k then .cons k1 v rest else .cons k1 v1 (insertEntry rest k v)

/-- Transform the node at a key, leaving the map unchanged if absent. -/
def mapEntry (m : Contents) (k : Str) (f : OscNode → OscNode) : Contents :=
  match m with
  | .nil => .nil
  | .cons k1 v rest =>
    if k1 = k then .cons k1 (f v) rest else .cons k1 v (mapEntry rest k f)

def isSlash (c : Char) : Bool := c = '/'

/-- Model of `str::trim_matches('/')`: drop all leading and trailing slashes. -/
def trimSlashes (l : Str) : Str :=
  ((l.dropWhile isSlash).reverse.dropWhile isSlash).reverse

/-- Model of `str::split('/')`: the empty string yields one empty piece, and
consecutive separators yield empty pieces, exactly as in Rust. -/
def splitSlash : Str → List Str
  | [] => [[]]
  | c :: rest =>
    if isSlash c then [] :: splitSlash rest
    else
      match splitSlash rest with
      | s :: ss => (c :: s) :: ss
      | [] => [[c]]

/-- Model of `str::rfind('/')`: index of the last slash, if any. -/
def rfindSlash : Str → Option Nat
  | [] => Option.none
  | c :: rest =>
    match rfindSlash rest with
    | some i => some (i + 1)
    | Option.none => if isSlash c then some 0 else Option.none

/-- Model of `s.rsplit('/').next()`: the suffix after the last slash
(the whole string when it has no slash). -/
def lastSeg (l : Str) : Str :=
  (l.reverse.takeWhile (fun c => ! isSlash c)).reverse

/-- Whether a string ends in a slash character. -/
def endsInSlash (p : Str) : Bool :=
  match p.reverse with
  | [] => false
  | c :: _ => isSlash c

/-- The one-character string consisting of a slash. -/
def slashStr : Str := ['/']

/-- `OscNode::new_container` from node.rs. -/
def OscNode.new_container (full_path : Str) : OscNode :=
  .mk full_path (some Access.none) Option.none Option.none .nil

/-- `OscNode::new_method` from node.rs. -/
def OscNode.new_method (full_path : Str) (access : Access) (typetag : Str) : OscNode :=
  .mk full_path (some access) (some typetag) Option.none .nil

/-- The walking loop of `OscNode::ensure_path`: for each part, push a slash
and the part onto `base`, and enter
`contents.entry(part).or_insert_with(new_container(base))`. -/
def ensureSegs (base : Str) (node : OscNode) : List Str → OscNode
  | [] => node
  | s :: rest =>
    match node with
    | .mk fp a t v cs =>
      .mk fp a t v
        (modifyEntry cs s (OscNode.new_container (base ++ '/' :: s))
          (fun c => ensureSegs (base ++ '/' :: s) c rest))

/-- `OscNode::ensure_path` from node.rs, as a tree transformer.  The Rust
function returns a mutable reference into the tree; the node that reference
denotes is the one reached by following `pathSegsOf path` in the result. -/
def OscNode.ensure_path (root : OscNode) (path : Str) : OscNode :=
  if path = slashStr then root
  else ensureSegs [] root (splitSlash (trimSlashes path))

/-- The key sequence `ensure_path` walks for a given path (empty for `"/"`);
the reference returned by the Rust function points at this position. -/
def pathSegsOf (path : Str) : List Str :=
  if path = slashStr then [] else splitSlash (trimSlashes path)

/-- Follow a sequence of child keys from a node. -/
def getAt (node : OscNode) : List Str → Option OscNode
  | [] => some node
  | s :: rest =>
    match lookupEntry node.contents s with
    | some c => getAt c rest
    | Option.none => Option.none

/-- Apply a transformation to the node at a key sequence (no-op when the
position does not exist). -/
def updateAt (node : OscNode) : List Str → (OscNode → OscNode) → OscNode
  | [], f => f node
  | s :: rest, f =>
    match node with
    | .mk fp a t v cs => .mk fp a t v (mapEntry cs s (fun c => updateAt c rest f))

/-- The parent-path computation of `OscNode::add_method`:
`match path.rfind('/') { Some(idx) if idx > 0 => &path[..idx], _ => "/" }`. -/
def parent_path (path : Str) : Str :=
  match rfindSlash path with
  | some idx => if 0 < idx then path.take idx else slashStr
  | Option.none => slashStr

/-- The free function `path_name` from node.rs. -/
def path_name (path : Str) : Option Str :=
  if path = slashStr then Option.none
  else some (lastSeg (trimSlashes path))

/-- The leaf key used by `add_method`:
`path_name(path).unwrap_or_else(|| path.trim_matches('/').to_string())`. -/
def methodKey (path : Str) : Str :=
  (path_name path).getD (trimSlashes path)

/-- `OscNode::add_method` from node.rs: ensure the parent path, then insert a
method node under the leaf key through the reference `ensure_path` returned. -/
def OscNode.add_method (root : OscNode) (path : Str) (access : Access)
    (typetag : Str) : OscNode :=
  let pp := parent_path path
  let root1 := OscNode.ensure_path root pp
  updateAt root1 (pathSegsOf pp) (fun parent =>
    match parent with
    | .mk fp a t v cs =>
      .mk fp a t v (insertEntry cs (methodKey path) (OscNode.new_method path access typetag)))

/-- Decimal digits, with a fuel argument that dominates the digit count. -/
def natDigitsAux : Nat → Nat → Str
  | 0, _ => []
  | fuel + 1, n =>
    if n < 10 then [Char.ofNat (48 + n)]
    else natDigitsAux fuel (n / 10) ++ [Char.ofNat (48 + n % 10)]

/-- Decimal digits of a natural number, for the numeric JSON rendering. -/
def natDigits (n : Nat) : Str :=
  natDigitsAux (n + 1) n

/-- The opening brace character. -/
def lbrace : Char := Char.ofNat 123

/-- The closing brace character. -/
def rbrace : Char := Char.ofNat 125

/-- Escaping of a character inside a JSON string literal. -/
def escapeChar (c : Char) : Str :=
  if c = '"' then ['\\', '"']
  else if c = '\\' then ['\\', '\\']
  else [c]

/-- Rendering of a JSON string literal. -/
def renderStr (s : Str) : Str :=
  '"' :: (s.map escapeChar).flatten ++ ['"']

/-- Join pieces with commas. -/
def joinComma : List Str → Str
  | [] => []
  | [s] => s
  | s :: rest => s ++ ',' :: joinComma rest

mutual
/-- Compact rendering of a JSON value, as `serde_json::to_string` produces. -/
def renderJson : Json → Str
  | .null => "null".data
  | .num n => natDigits n
  | .str s => renderStr s
  | .obj fields => lbrace :: joinComma (renderFields fields) ++ [rbrace]

/-- Rendering of the fields of a JSON object, one piece per field. -/
def renderFields : JFields → List Str
  | .nil => []
  | .cons k v rest => (renderStr k ++ ':' :: renderJson v) :: renderFields rest
end

/-- Concatenation of JSON field lists. -/
def JFields.append : JFields → JFields → JFields
  | .nil, m => m
  | .cons k v rest, m => .cons k v (JFields.append rest m)

/-- The names of the fields of a JSON field list. -/
def JFields.keys : JFields → List Str
  | .nil => []
  | .cons k _ rest => k :: JFields.keys rest

/-- Membership of a name/value pair in a JSON field list. -/
def JFields.MemKV (k : Str) (v : Json) : JFields → Prop
  | .nil => False
  | .cons k1 v1 rest => (k = k1 ∧ v = v1) ∨ JFields.MemKV k v rest

/-- The `ACCESS` field: emitted as its `Serialize_repr` numeric value, skipped
when the option is `None` (`skip_serializing_if = "Option::is_none"`). -/
def accessFields : Option Access → JFields
  | some a => .cons ("ACCESS".data) (Json.num a.toNat) .nil
  | Option.none => .nil

/-- The `TYPE` field, skipped when absent. -/
def typeFields : Option Str → JFields
  | some t => .cons ("TYPE".data) (Json.str t) .nil
  | Option.none => .nil

/-- The `VALUE` field, skipped when absent. -/
def valueFields : Option Json → JFields
  | some v => .cons ("VALUE".data) v .nil
  | Option.none => .nil

/-- Whether a children map is empty (`HashMap::is_empty`, the skip condition
of `CONTENTS`). -/
def Contents.isEmpty : Contents → Bool
  | .nil => true
  | .cons _ _ _ => false

mutual
/-- Serde serialization of an `OscNode` to a JSON value, following the field
attributes on the struct: `FULL_PATH` always, `ACCESS`, `TYPE` and `VALUE`
skipped when `None`, `CONTENTS` skipped when the map is empty. -/
def nodeToJson : OscNode → Json
  | .mk fp a t v cs =>
    Json.obj
      (JFields.cons ("FULL_PATH".data) (Json.str fp)
        (JFields.append (accessFields a)
          (JFields.append (typeFields t)
            (JFields.append (valueFields v)
              (if cs.isEmpty then .nil
               else .cons ("CONTENTS".data) (Json.obj (contentsToJson cs)) .nil)))))

/-- Serialization of the children map to JSON object fields. -/
def contentsToJson : Contents → JFields
  | .nil => .nil
  | .cons k c rest => .cons k (nodeToJson c) (contentsToJson rest)
end

/-- The fields of a JSON value (empty for non-objects). -/
def fieldsOf : Json → JFields
  | .obj fields => fields
  | _ => .nil

/-- The names of the fields of a JSON value (empty for non-objects). -/
def keysOf (j : Json) : List Str :=
  (fieldsOf j).keys

/-- The `HostInfo` struct from server.rs. -/
structure HostInfo where
  name : Str
  osc_ip : Str
  osc_port : Nat
  osc_transport : Str
  extensions : Json

/-- Serde serialization of `HostInfo`, following its rename attributes. -/
def hostInfoToJson (h : HostInfo) : Json :=
  Json.obj
    (.cons ("NAME".data) (Json.str h.name)
      (.cons ("OSC_IP".data) (Json.str h.osc_ip)
        (.cons ("OSC_PORT".data) (Json.num h.osc_port)
          (.cons ("OSC_TRANSPORT".data) (Json.str h.osc_transport)
            (.cons ("EXTENSIONS".data) h.extensions .nil)))))

/-- ASCII lowercasing of one character, as in `eq_ignore_ascii_case`. -/
def asciiLower (c : Char) : Char :=
  if 'A' ≤ c ∧ c ≤ 'Z' then Char.ofNat (c.toNat + 32) else c

/-- Model of `str::eq_ignore_ascii_case`. -/
def eqIgnoreAsciiCase (a b : Str) : Bool :=
  decide (a.map asciiLower = b.map asciiLower)

/-- An HTTP response as produced by `handle_request`: status code,
Content-Type header, and body. -/
structure ResponseM where
  status : Nat
  contentType : Str
  body : Str

/-- The `handle_request` function from server.rs.  The query string is
`uri.query().unwrap_or("")`; the tree argument is the snapshot of the shared
root read under the lock.  (Our serializer is total, so the `unwrap_or_else`
fallbacks for serde errors are never taken.) -/
def handle_request (query : Option Str) (host_info : HostInfo) (root : OscNode) :
    ResponseM :=
  let q := query.getD []
  if eqIgnoreAsciiCase q ("HOST_INFO".data) then
    ⟨200, "application/json".data, renderJson (hostInfoToJson host_info)⟩
  else
    ⟨200, "application/json".data, renderJson (nodeToJson root)⟩

/-- An IPv4 address. -/
structure Ipv4 where
  a : Nat
  b : Nat
  c : Nat
  d : Nat
deriving DecidableEq, Repr

/-- `Ipv4Addr::LOCALHOST`, 127.0.0.1. -/
def localhostV4 : Ipv4 := ⟨127, 0, 0, 1⟩

/-- The fields of `mdns_sd::ServiceInfo` that the discovery loop reads. -/
structure ServiceInfoM where
  ty_domain : Str
  fullname : Str
  host : Str
  addrs_v4 : List Ipv4
  port : Nat

/-- The `mdns_sd::ServiceEvent` cases as seen by the loop: a resolved
service, or any other event (all of which the loop ignores). -/
inductive ServiceEventM where
  | serviceResolved (info : ServiceInfoM)
  | otherEvent

/-- One iteration's observable outcome in `discover_vrchat_oscquery`:
the deadline was already reached at the top of the loop, the bounded
`tokio::time::timeout` wait elapsed, the event channel closed
(`Ok(Err(_))`), or an event was received. -/
inductive RecvOutcome where
  | deadlineReached
  | recvTimeout
  | recvClosed
  | received (e : ServiceEventM)

/-- The `DiscoveredOscQueryService` struct from client.rs. -/
structure DiscoveredOscQueryService where
  instance_name : Str
  host_name : Str
  addr_v4 : Ipv4
  port : Nat
deriving DecidableEq, Repr

/-- The `OscQueryError` enum from client.rs. -/
inductive OscQueryError where
  | mdns (msg : Str)
  | json (msg : Str)
  | discoveryTimeout
  | discoveryChannelClosed
deriving DecidableEq

/-- Whether the second string starts with the first (`str::starts_with`). -/
def strStarts : Str → Str → Bool
  | [], _ => true
  | _ :: _, [] => false
  | a :: as1, b :: bs => a = b && strStarts as1 bs

/-- The match test in the loop:
`info.ty_domain == "_oscjson._tcp.local." && info.fullname.starts_with("VRChat-Client-")`. -/
def matchesTarget (info : ServiceInfoM) : Bool :=
  decide (info.ty_domain = "_oscjson._tcp.local.".data) &&
    strStarts ("VRChat-Client-".data) info.fullname

/-- The success value built from a matching resolved service: full name,
host, first IPv4 address (loopback when none), port. -/
def resolveService (info : ServiceInfoM) : DiscoveredOscQueryService :=
  ⟨info.fullname, info.host, info.addrs_v4.headD localhostV4, info.port⟩

/-- The value a return path of the loop produces, together with whether
`mdns.shutdown()` was called on that path. -/
structure DiscReturn where
  result : Except OscQueryError DiscoveredOscQueryService
  shutdownCalled : Bool

/-- The wait loop of `discover_vrchat_oscquery` from client.rs, as a function
of the stream of receive outcomes it observes.  `none` means the stream was
exhausted without the loop returning (in the program the loop always receives
another outcome, so this case never arises on real executions). -/
def discover_vrchat_oscquery_loop : List RecvOutcome → Option DiscReturn
  | [] => Option.none
  | RecvOutcome.deadlineReached :: _ =>
    some ⟨Except.error OscQueryError.discoveryTimeout, true⟩
  | RecvOutcome.recvTimeout :: _ =>
    some ⟨Except.error OscQueryError.discoveryTimeout, true⟩
  | RecvOutcome.recvClosed :: _ =>
    some ⟨Except.error OscQueryError.discoveryChannelClosed, true⟩
  | RecvOutcome.received e :: rest =>
    match e with
    | ServiceEventM.serviceResolved info =>
      if matchesTarget info then some ⟨Except.ok (resolveService info), true⟩
      else discover_vrchat_oscquery_loop rest
    | ServiceEventM.otherEvent => discover_vrchat_oscquery_loop rest

/-- An outcome the loop ignores (continuing to the next iteration): a
received event that is not a resolved service matching both predicates. -/
def ignoredOutcome : RecvOutcome → Prop
  | RecvOutcome.received (ServiceEventM.serviceResolved info) => matchesTarget info = false
  | RecvOutcome.received ServiceEventM.otherEvent => True
  | _ => False

/-- Concatenation of path segments with slash separators (no leading slash). -/
def joinSegs : List Str → Str
  | [] => []
  | [s] => s
  | s :: s2 :: rest => s ++ '/' :: joinSegs (s2 :: rest)

/-- The absolute path with the given segments: `"/"` followed by the
slash-separated segments (so `joinPath [] = "/"`). -/
def joinPath (segs : List Str) : Str :=
  '/' :: joinSegs segs

/-- A well-formed path segment: nonempty and slash-free. -/
def isSeg (s : Str) : Prop := s ≠ [] ∧ '/' ∉ s

/-- A well-formed absolute path: `"/"`, or `"/"` followed by nonempty,
slash-free segments separated by single slashes. -/
def wfPath (p : Str) : Prop :=
  ∃ segs, (∀ s ∈ segs, isSeg s) ∧ p = joinPath segs

/-- A well-formed absolute method path: a well-formed path with at least one
segment (so not the bare root `"/"`). -/
def wfMethodPath (p : Str) : Prop :=
  ∃ segs, segs ≠ [] ∧ (∀ s ∈ segs, isSeg s) ∧ p = joinPath segs

/-- The base string `ensure_path` has accumulated after walking the given
segments from the root: empty initially, `joinPath segs` afterwards. -/
def baseOf (segs : List Str) : Str :=
  if segs = [] then [] else joinPath segs

/-- The path invariant at a position: a node sitting at the child-key
sequence `segs` below the root has `full_path = joinPath segs`, every child
key is a nonempty slash-free segment, and all children satisfy the invariant
one level deeper. -/
inductive InvAt : List Str → OscNode → Prop where
  | mk : ∀ (segs : List Str) (a : Option Access) (t : Option Str) (v : Option Json)
      (cs : Contents),
      (∀ k c, Contents.MemKV k c cs → isSeg k) →
      (∀ k c, Contents.MemKV k c cs → InvAt (segs ++ [k]) c) →
      InvAt segs (OscNode.mk (joinPath segs) a t v cs)

/-- A tree-building operation: one call of `ensure_path` or `add_method`
on the root. -/
inductive Op where
  | ensure (path : Str)
  | method (path : Str) (access : Access) (typetag : Str)

/-- Apply one operation to the root. -/
def applyOp (n : OscNode) : Op → OscNode
  | .ensure p => OscNode.ensure_path n p
  | .method p a t => OscNode.add_method n p a t

/-- The tree built from a fresh root `"/"` by a sequence of operations. -/
def buildTree (ops : List Op) : OscNode :=
  ops.foldl applyOp (OscNode.new_container slashStr)

/-- Well-formedness of an operation's path argument. -/
def wfOp : Op → Prop
  | .ensure p => wfPath p
  | .method p _ _ => wfMethodPath p

example : trimSlashes ("//a/b//".data) = "a/b".data := by decide
example : splitSlash ("a//b".data) = ["a".data, [], "b".data] := by decide
example : splitSlash [] = [[]] := by decide
example : rfindSlash ("ab/c".data) = some 2 := by decide
example : parent_path ("/a/b".data) = "/a".data := by decide
example : parent_path ("/a".data) = slashStr := by decide
example : path_name ("/a/b".data) = some ("b".data) := by decide
example : methodKey ("/a/".data) = "a".data := by decide

example :
    renderJson (nodeToJson (OscNode.ensure_path (OscNode.new_container slashStr) ("/avatar".data)))
      = "\x7b\"FULL_PATH\":\"/\",\"ACCESS\":0,\"CONTENTS\":\x7b\"avatar\":\x7b\"FULL_PATH\":\"/avatar\",\"ACCESS\":0\x7d\x7d\x7d".data := by
  decide

example :
    OscNode.add_method (OscNode.new_container slashStr) ("/avatar/parameters/Foo".data)
        Access.readWrite ("f".data)
      = OscNode.mk slashStr (some Access.none) Option.none Option.none
          (.cons ("avatar".data)
            (OscNode.mk ("/avatar".data) (some Access.none) Option.none Option.none
              (.cons ("parameters".data)
                (OscNode.mk ("/avatar/parameters".data) (some Access.none) Option.none Option.none
                  (.cons ("Foo".data)
                    (OscNode.new_method ("/avatar/parameters/Foo".data) Access.readWrite ("f".data))
                    .nil))
                .nil))
            .nil) := by
  rfl

example :
    OscNode.ensure_path (OscNode.new_container slashStr) ("//".data)
      = OscNode.mk slashStr (some Access.none) Option.none Option.none
          (.cons [] (OscNode.new_container slashStr) .nil) := by
  rfl

example :
    getAt (updateAt (OscNode.ensure_path (OscNode.new_container slashStr) ("/a".data))
        (pathSegsOf ("/a".data)) (fun n => OscNode.ensure_path n ("/a".data)))
      [("a".data), ("a".data)] = some (OscNode.new_container ("/a".data)) := by
  rfl

/-! #### String-level lemmas about paths -/

@[simp] theorem joinSegs_nil : joinSegs [] = [] := rfl

@[simp] theorem joinSegs_single (s : Str) : joinSegs [s] = s := rfl

@[simp] theorem joinSegs_cons_cons (s s2 : Str) (rest : List Str) :
    joinSegs (s :: s2 :: rest) = s ++ '/' :: joinSegs (s2 :: rest) := rfl

theorem joinSegs_snoc : ∀ (xs : List Str) (y : Str), xs ≠ [] →
    joinSegs (xs ++ [y]) = joinSegs xs ++ '/' :: y := by
  intro xs
  induction xs with
  | nil => intro y h; exact absurd rfl h
  | cons x xs ih =>
    intro y _
    cases xs with
    | nil => simp
    | cons x2 rest =>
      have h2 := ih y (by simp)
      simp only [List.cons_append] at h2 ⊢
      simp [h2]

theorem joinPath_nil : joinPath [] = slashStr := rfl

theorem baseOf_ne_nil (segs : List Str) (h : segs ≠ []) : baseOf segs = joinPath segs := by
  simp [baseOf, h]

theorem baseOf_append_seg (segs : List Str) (s : Str) :
    baseOf segs ++ '/' :: s = joinPath (segs ++ [s]) := by
  cases segs with
  | nil => rfl
  | cons a rest =>
    rw [baseOf_ne_nil _ (by simp)]
    show joinPath (a :: rest) ++ '/' :: s = joinPath ((a :: rest) ++ [s])
    rw [joinPath, joinPath, joinSegs_snoc (a :: rest) s (by simp)]
    simp

theorem joinSegs_head (segs : List Str) (h : ∀ s ∈ segs, isSeg s) (hne : segs ≠ []) :
    ∃ c cs, joinSegs segs = c :: cs ∧ isSlash c = false := by
  cases segs with
  | nil => exact absurd rfl hne
  | cons s rest =>
    obtain ⟨hs1, hs2⟩ := h s (by simp)
    cases hcs : s with
    | nil => exact absurd hcs hs1
    | cons c cs0 =>
      have hcslash : c ≠ '/' := by
        intro hcc
        exact hs2 (by rw [hcs, hcc]; simp)
      cases rest with
      | nil => exact ⟨c, cs0, by simp [hcs], by simp [isSlash, hcslash]⟩
      | cons s2 rest2 =>
        exact ⟨c, cs0 ++ '/' :: joinSegs (s2 :: rest2), by simp [hcs],
          by simp [isSlash, hcslash]⟩

theorem joinSegs_last (segs : List Str) (h : ∀ s ∈ segs, isSeg s) (hne : segs ≠ []) :
    ∃ ds d, joinSegs segs = ds ++ [d] ∧ isSlash d = false := by
  induction segs with
  | nil => exact absurd rfl hne
  | cons s rest ih =>
    cases rest with
    | nil =>
      obtain ⟨hs1, hs2⟩ := h s (by simp)
      obtain hnil | ⟨ds, d, hd⟩ := s.eq_nil_or_concat
      · exact absurd hnil hs1
      · refine ⟨ds, d, by simp [hd], ?_⟩
        have hmem : d ∈ s := by simp [hd]
        have : d ≠ '/' := fun hdd => hs2 (hdd ▸ hmem)
        simp [isSlash, this]
    | cons s2 rest2 =>
      obtain ⟨ds, d, hds, hd⟩ :=
        ih (fun x hx => h x (List.mem_cons_of_mem _ hx)) (by simp)
      exact ⟨s ++ '/' :: ds, d, by simp [hds], hd⟩

theorem trimSlashes_joinPath (segs : List Str) (h : ∀ s ∈ segs, isSeg s)
    (hne : segs ≠ []) : trimSlashes (joinPath segs) = joinSegs segs := by
  obtain ⟨c, cs, hcons, hc⟩ := joinSegs_head segs h hne
  obtain ⟨ds, d, hsnoc, hd⟩ := joinSegs_last segs h hne
  have h1 : List.dropWhile isSlash ('/' :: joinSegs segs)
      = List.dropWhile isSlash (joinSegs segs) := by
    simp [List.dropWhile_cons, isSlash]
  have h2 : List.dropWhile isSlash (joinSegs segs) = joinSegs segs := by
    rw [hcons, List.dropWhile_cons, hc]
    simp
  have h3 : (joinSegs segs).reverse = d :: ds.reverse := by
    rw [hsnoc]
    simp
  have h4 : List.dropWhile isSlash ((joinSegs segs).reverse)
      = (joinSegs segs).reverse := by
    rw [h3, List.dropWhile_cons, hd]
    simp [← h3]
  show ((('/' :: joinSegs segs).dropWhile isSlash).reverse.dropWhile isSlash).reverse
      = joinSegs segs
  rw [h1, h2, h4, List.reverse_reverse]

theorem splitSlash_no_slash (s : Str) (h : '/' ∉ s) : splitSlash s = [s] := by
  induction s with
  | nil => rfl
  | cons c rest ih =>
    have hc : isSlash c = false := by
      have : c ≠ '/' := fun hcc => h (by simp [hcc])
      simp [isSlash, this]
    have hr := ih (fun hm => h (by simp [hm]))
    simp [splitSlash, hc, hr]

theorem splitSlash_append (s t : Str) (h : '/' ∉ s) :
    splitSlash (s ++ '/' :: t) = s :: splitSlash t := by
  induction s with
  | nil => simp [splitSlash, isSlash]
  | cons c cs ih =>
    have hc : isSlash c = false := by
      have : c ≠ '/' := fun hcc => h (by simp [hcc])
      simp [isSlash, this]
    have ih2 := ih (fun hm => h (by simp [hm]))
    simp [splitSlash, hc, ih2]

theorem splitSlash_joinSegs (segs : List Str) (h : ∀ s ∈ segs, '/' ∉ s)
    (hne : segs ≠ []) : splitSlash (joinSegs segs) = segs := by
  induction segs with
  | nil => exact absurd rfl hne
  | cons s rest ih =>
    cases rest with
    | nil => simpa using splitSlash_no_slash s (h s (by simp))
    | cons s2 rest2 =>
      rw [joinSegs_cons_cons, splitSlash_append _ _ (h s (by simp)),
        ih (fun x hx => h x (List.mem_cons_of_mem _ hx)) (by simp)]

theorem joinPath_ne_slash (segs : List Str) (h : ∀ s ∈ segs, isSeg s)
    (hne : segs ≠ []) : joinPath segs ≠ slashStr := by
  obtain ⟨c, cs, hcons, _⟩ := joinSegs_head segs h hne
  simp [joinPath, slashStr, hcons]

theorem pathSegsOf_joinPath (segs : List Str) (h : ∀ s ∈ segs, isSeg s) :
    pathSegsOf (joinPath segs) = segs := by
  by_cases hne : segs = []
  · subst hne
    rfl
  · unfold pathSegsOf
    rw [if_neg (joinPath_ne_slash segs h hne), trimSlashes_joinPath segs h hne,
      splitSlash_joinSegs segs (fun s hs => (h s hs).2) hne]

theorem joinPath_inj (segs1 segs2 : List Str) (h1 : ∀ s ∈ segs1, isSeg s)
    (h2 : ∀ s ∈ segs2, isSeg s) (he : joinPath segs1 = joinPath segs2) :
    segs1 = segs2 := by
  have e1 := pathSegsOf_joinPath segs1 h1
  rw [he, pathSegsOf_joinPath segs2 h2] at e1
  exact e1.symm

theorem rfindSlash_no_slash (l : Str) (h : '/' ∉ l) : rfindSlash l = Option.none := by
  induction l with
  | nil => rfl
  | cons c rest ih =>
    have hc : isSlash c = false := by
      have : c ≠ '/' := fun hcc => h (by simp [hcc])
      simp [isSlash, this]
    simp [rfindSlash, ih (fun hm => h (by simp [hm])), hc]

theorem rfindSlash_append (a b : Str) (h : '/' ∉ b) :
    rfindSlash (a ++ '/' :: b) = some a.length := by
  induction a with
  | nil => simp [rfindSlash, rfindSlash_no_slash b h, isSlash]
  | cons c a1 ih => simp [rfindSlash, ih]

theorem take_length_append {α : Type} (a b : List α) : (a ++ b).take a.length = a := by
  induction a with
  | nil => rfl
  | cons c rest ih => simp [ih]

theorem parent_path_no_slash (p : Str) (h : '/' ∉ p) : parent_path p = slashStr := by
  simp [parent_path, rfindSlash_no_slash p h]

theorem parent_path_concat (a b : Str) (ha : a ≠ []) (hb : '/' ∉ b) :
    parent_path (a ++ '/' :: b) = a := by
  unfold parent_path
  rw [rfindSlash_append a b hb]
  have hlen : 0 < a.length := List.length_pos.mpr ha
  simp [hlen, take_length_append]

theorem parent_path_root_child (b : Str) (hb : '/' ∉ b) :
    parent_path ('/' :: b) = slashStr := by
  have h0 := rfindSlash_append [] b hb
  simp only [List.nil_append] at h0
  simp [parent_path, h0]

theorem takeWhile_append_all {α : Type} (p : α → Bool) (xs ys : List α)
    (h : ∀ x ∈ xs, p x = true) :
    List.takeWhile p (xs ++ ys) = xs ++ List.takeWhile p ys := by
  induction xs with
  | nil => rfl
  | cons c rest ih =>
    have hc := h c (by simp)
    simp [List.takeWhile_cons, hc, ih (fun x hx => h x (by simp [hx]))]

theorem takeWhile_append_stop {α : Type} (p : α → Bool) (xs ys : List α)
    (h : ∃ x ∈ xs, p x = false) :
    List.takeWhile p (xs ++ ys) = List.takeWhile p xs := by
  induction xs with
  | nil =>
    obtain ⟨x, hx, _⟩ := h
    simp at hx
  | cons c rest ih =>
    by_cases hc : p c = true
    · obtain ⟨x, hx, hpx⟩ := h
      have hxrest : x ∈ rest := by
        rcases List.mem_cons.mp hx with hxc | hxr
        · rw [hxc] at hpx
          rw [hpx] at hc
          exact absurd hc (by simp)
        · exact hxr
      simp [List.takeWhile_cons, hc, ih ⟨x, hxrest, hpx⟩]
    · have hc2 : p c = false := by
        cases hcc : p c
        · rfl
        · exact absurd hcc hc
      simp [List.takeWhile_cons, hc2]

theorem mem_of_mem_takeWhile {α : Type} (p : α → Bool) :
    ∀ (l : List α) (x : α), x ∈ List.takeWhile p l → p x = true := by
  intro l
  induction l with
  | nil => intro x hx; simp [List.takeWhile] at hx
  | cons c rest ih =>
    intro x hx
    rw [List.takeWhile_cons] at hx
    by_cases hc : p c = true
    · rw [if_pos hc] at hx
      rcases List.mem_cons.mp hx with hxc | hxr
      · exact hxc ▸ hc
      · exact ih x hxr
    · have hc2 : p c = false := by
        cases hcc : p c
        · rfl
        · exact absurd hcc hc
      rw [hc2] at hx
      simp at hx

theorem lastSeg_no_slash (l : Str) (h : '/' ∉ l) : lastSeg l = l := by
  unfold lastSeg
  have hall : ∀ x ∈ l.reverse, (! isSlash x) = true := by
    intro x hx
    have : x ≠ '/' := fun hxx => h (hxx ▸ (List.mem_reverse.mp hx))
    simp [isSlash, this]
  have := takeWhile_append_all (fun c => ! isSlash c) l.reverse [] hall
  simp only [List.takeWhile_nil, List.append_nil] at this
  rw [this, List.reverse_reverse]

theorem lastSeg_concat (a b : Str) (hb : '/' ∉ b) : lastSeg (a ++ '/' :: b) = b := by
  unfold lastSeg
  rw [List.reverse_append, List.reverse_cons]
  have hall : ∀ x ∈ b.reverse, (! isSlash x) = true := by
    intro x hx
    have : x ≠ '/' := fun hxx => hb (hxx ▸ (List.mem_reverse.mp hx))
    simp [isSlash, this]
  rw [List.append_assoc, takeWhile_append_all _ b.reverse _ hall]
  simp [List.takeWhile_cons, isSlash]

theorem lastSeg_append_of_mem (xs ys : Str) (h : '/' ∈ ys) :
    lastSeg (xs ++ ys) = lastSeg ys := by
  unfold lastSeg
  rw [List.reverse_append,
    takeWhile_append_stop _ ys.reverse xs.reverse
      ⟨'/', List.mem_reverse.mpr h, by simp [isSlash]⟩]

theorem path_name_joinPath (init : List Str) (nm : Str)
    (h : ∀ s ∈ init ++ [nm], isSeg s) :
    path_name (joinPath (init ++ [nm])) = some nm := by
  have hne : init ++ [nm] ≠ [] := by simp
  have hnm : '/' ∉ nm := (h nm (by simp)).2
  unfold path_name
  rw [if_neg (joinPath_ne_slash _ h hne), trimSlashes_joinPath _ h hne]
  cases init with
  | nil => simp [lastSeg_no_slash nm hnm]
  | cons i0 irest =>
    rw [joinSegs_snoc (i0 :: irest) nm (by simp), lastSeg_concat _ _ hnm]

theorem methodKey_joinPath (init : List Str) (nm : Str)
    (h : ∀ s ∈ init ++ [nm], isSeg s) :
    methodKey (joinPath (init ++ [nm])) = nm := by
  unfold methodKey
  rw [path_name_joinPath init nm h]
  rfl

theorem head?_append_of_ne_nil {α : Type} (l1 l2 : List α) (h : l1 ≠ []) :
    (l1 ++ l2).head? = l1.head? := by
  cases l1 with
  | nil => exact absurd rfl h
  | cons c rest => rfl

theorem trimSlashes_no_trailing (p : Str) (h : endsInSlash p = false) :
    trimSlashes p = p.dropWhile isSlash := by
  unfold trimSlashes
  by_cases hqn : p.dropWhile isSlash = []
  · rw [hqn]
    rfl
  · have hsplit : p.takeWhile isSlash ++ p.dropWhile isSlash = p :=
      List.takeWhile_append_dropWhile isSlash p
    obtain ⟨d, ds, hds⟩ : ∃ d ds, (p.dropWhile isSlash).reverse = d :: ds := by
      cases hc : (p.dropWhile isSlash).reverse with
      | nil => exact absurd (by simpa using congrArg List.reverse hc) hqn
      | cons d ds => exact ⟨d, ds, rfl⟩
    have hrev : p.reverse = (p.dropWhile isSlash).reverse ++ (p.takeWhile isSlash).reverse := by
      rw [← List.reverse_append, hsplit]
    have hd : isSlash d = false := by
      have hhead : p.reverse.head? = some d := by
        rw [hrev, head?_append_of_ne_nil _ _ (by simp [hds]), hds]
        rfl
      unfold endsInSlash at h
      cases hp : p.reverse with
      | nil => rw [hp] at hhead; simp at hhead
      | cons c rest =>
        rw [hp] at h hhead
        simp at hhead
        rw [← hhead]
        exact h
    rw [hds, List.dropWhile_cons, hd]
    simp [← hds]

theorem lastSeg_dropWhile (p : Str) :
    lastSeg (p.dropWhile isSlash) = lastSeg p := by
  have hsplit : p.takeWhile isSlash ++ p.dropWhile isSlash = p :=
    List.takeWhile_append_dropWhile isSlash p
  by_cases hq : '/' ∈ p.dropWhile isSlash
  · conv_rhs => rw [← hsplit]
    rw [lastSeg_append_of_mem _ _ hq]
  · by_cases hf : p.takeWhile isSlash = []
    · conv_rhs => rw [← hsplit]
      rw [hf]
      rfl
    · conv_rhs => rw [← hsplit]
      unfold lastSeg
      rw [List.reverse_append]
      have hall : ∀ x ∈ (p.dropWhile isSlash).reverse, (! isSlash x) = true := by
        intro x hx
        have : x ≠ '/' := fun hxx => hq (hxx ▸ (List.mem_reverse.mp hx))
        simp [isSlash, this]
      rw [takeWhile_append_all _ _ _ hall]
      obtain ⟨c, rest, hcr⟩ : ∃ c rest, (p.takeWhile isSlash).reverse = c :: rest := by
        cases hc : (p.takeWhile isSlash).reverse with
        | nil => exact absurd (by simpa using congrArg List.reverse hc) hf
        | cons c rest => exact ⟨c, rest, rfl⟩
      have hc : isSlash c = true := by
        have : c ∈ p.takeWhile isSlash := by
          rw [← List.mem_reverse, hcr]
          simp
        exact mem_of_mem_takeWhile isSlash p c this
      rw [hcr, List.takeWhile_cons, hc]
      simp only [Bool.not_true, List.append_nil, cond_false, if_false,
        Bool.false_eq_true, reduceIte]
      have h2 := takeWhile_append_all (fun c => ! isSlash c)
        (List.dropWhile isSlash p).reverse [] hall
      simp only [List.takeWhile_nil, List.append_nil] at h2
      rw [h2, List.reverse_reverse]

theorem methodKey_no_trailing (p : Str) (h : endsInSlash p = false) :
    methodKey p = lastSeg p := by
  have hp : p ≠ slashStr := by
    intro hps
    rw [hps] at h
    simp [endsInSlash, slashStr, isSlash] at h
  unfold methodKey path_name
  rw [if_neg hp]
  show lastSeg (trimSlashes p) = lastSeg p
  rw [trimSlashes_no_trailing p h, lastSeg_dropWhile]

/-! #### Lemmas about the children map -/

/-- Induction principle for the children map (the mutual recursor cannot be
used by the `induction` tactic directly). -/
theorem Contents.minduct (P : Contents → Prop) (h0 : P .nil)
    (h1 : ∀ k v rest, P rest → P (.cons k v rest)) : ∀ m, P m
  | .nil => h0
  | .cons k v rest => h1 k v rest (Contents.minduct P h0 h1 rest)


theorem lookupEntry_mem (m : Contents) (k : Str) (v : OscNode)
    (h : lookupEntry m k = some v) : Contents.MemKV k v m := by
  induction m using Contents.minduct with
  | h0 => simp [lookupEntry] at h
  | h1 k1 v1 rest ih =>
    rw [lookupEntry] at h
    by_cases hk : k1 = k
    · rw [if_pos hk] at h
      exact Or.inl ⟨hk.symm, (Option.some_injective _ h).symm⟩
    · rw [if_neg hk] at h
      exact Or.inr (ih h)

theorem memKV_modifyEntry (m : Contents) (key : Str) (d : OscNode)
    (f : OscNode → OscNode) (k : Str) (c : OscNode)
    (h : Contents.MemKV k c (modifyEntry m key d f)) :
    Contents.MemKV k c m ∨
      (k = key ∧ (c = f d ∨ ∃ v, Contents.MemKV key v m ∧ c = f v)) := by
  induction m using Contents.minduct with
  | h0 =>
    rcases h with ⟨hk, hc⟩ | hfalse
    · exact Or.inr ⟨hk, Or.inl hc⟩
    · exact absurd hfalse id
  | h1 k1 v1 rest ih =>
    rw [modifyEntry] at h
    by_cases hk : k1 = key
    · rw [if_pos hk] at h
      rcases h with ⟨hk2, hc⟩ | hrest
      · exact Or.inr ⟨hk2.trans hk, Or.inr ⟨v1, Or.inl ⟨hk.symm, rfl⟩, hc⟩⟩
      · exact Or.inl (Or.inr hrest)
    · rw [if_neg hk] at h
      rcases h with ⟨hk2, hc⟩ | hrest
      · exact Or.inl (Or.inl ⟨hk2, hc⟩)
      · rcases ih hrest with hm | ⟨hkey, hcase⟩
        · exact Or.inl (Or.inr hm)
        · rcases hcase with hcd | ⟨v, hv, hc2⟩
          · exact Or.inr ⟨hkey, Or.inl hcd⟩
          · exact Or.inr ⟨hkey, Or.inr ⟨v, Or.inr hv, hc2⟩⟩

theorem lookup_modifyEntry_self (m : Contents) (k : Str) (d : OscNode)
    (f : OscNode → OscNode) :
    lookupEntry (modifyEntry m k d f) k = some (f ((lookupEntry m k).getD d)) := by
  induction m using Contents.minduct with
  | h0 => simp [modifyEntry, lookupEntry]
  | h1 k1 v1 rest ih =>
    rw [modifyEntry]
    by_cases hk : k1 = k
    · rw [if_pos hk, lookupEntry, if_pos hk, lookupEntry, if_pos hk]
      rfl
    · rw [if_neg hk, lookupEntry, if_neg hk, lookupEntry, if_neg hk, ih]

theorem memKV_insertEntry (m : Contents) (key : Str) (v : OscNode)
    (k : Str) (c : OscNode) (h : Contents.MemKV k c (insertEntry m key v)) :
    Contents.MemKV k c m ∨ (k = key ∧ c = v) := by
  induction m using Contents.minduct with
  | h0 =>
    rcases h with ⟨hk, hc⟩ | hfalse
    · exact Or.inr ⟨hk, hc⟩
    · exact absurd hfalse id
  | h1 k1 v1 rest ih =>
    rw [insertEntry] at h
    by_cases hk : k1 = key
    · rw [if_pos hk] at h
      rcases h with ⟨hk2, hc⟩ | hrest
      · exact Or.inr ⟨hk2.trans hk, hc⟩
      · exact Or.inl (Or.inr hrest)
    · rw [if_neg hk] at h
      rcases h with ⟨hk2, hc⟩ | hrest
      · exact Or.inl (Or.inl ⟨hk2, hc⟩)
      · rcases ih hrest with hm | hkc
        · exact Or.inl (Or.inr hm)
        · exact Or.inr hkc

theorem lookup_insertEntry_self (m : Contents) (k : Str) (v : OscNode) :
    lookupEntry (insertEntry m k v) k = some v := by
  induction m using Contents.minduct with
  | h0 => simp [insertEntry, lookupEntry]
  | h1 k1 v1 rest ih =>
    rw [insertEntry]
    by_cases hk : k1 = k
    · rw [if_pos hk, lookupEntry, if_pos hk]
    · rw [if_neg hk, lookupEntry, if_neg hk, ih]

theorem memKV_mapEntry (m : Contents) (key : Str) (f : OscNode → OscNode)
    (k : Str) (c : OscNode) (h : Contents.MemKV k c (mapEntry m key f)) :
    Contents.MemKV k c m ∨
      (k = key ∧ ∃ v, Contents.MemKV key v m ∧ c = f v) := by
  induction m using Contents.minduct with
  | h0 => exact absurd h id
  | h1 k1 v1 rest ih =>
    rw [mapEntry] at h
    by_cases hk : k1 = key
    · rw [if_pos hk] at h
      rcases h with ⟨hk2, hc⟩ | hrest
      · exact Or.inr ⟨hk2.trans hk, v1, Or.inl ⟨hk.symm, rfl⟩, hc⟩
      · exact Or.inl (Or.inr hrest)
    · rw [if_neg hk] at h
      rcases h with ⟨hk2, hc⟩ | hrest
      · exact Or.inl (Or.inl ⟨hk2, hc⟩)
      · rcases ih hrest with hm | ⟨hkey, v, hv, hc2⟩
        · exact Or.inl (Or.inr hm)
        · exact Or.inr ⟨hkey, v, Or.inr hv, hc2⟩

theorem lookup_mapEntry_some (m : Contents) (k : Str) (f : OscNode → OscNode)
    (v : OscNode) (h : lookupEntry m k = some v) :
    lookupEntry (mapEntry m k f) k = some (f v) := by
  induction m using Contents.minduct with
  | h0 => simp [lookupEntry] at h
  | h1 k1 v1 rest ih =>
    rw [lookupEntry] at h
    rw [mapEntry]
    by_cases hk : k1 = k
    · rw [if_pos hk] at h
      rw [if_pos hk, lookupEntry, if_pos hk, Option.some_injective _ h]
    · rw [if_neg hk] at h
      rw [if_neg hk, lookupEntry, if_neg hk, ih h]

theorem modifyEntry_of_lookup_none (m : Contents) (k : Str) (d : OscNode)
    (f : OscNode → OscNode) (h : lookupEntry m k = Option.none) :
    modifyEntry m k d f = Contents.append m (.cons k (f d) .nil) := by
  induction m using Contents.minduct with
  | h0 => rfl
  | h1 k1 v1 rest ih =>
    rw [lookupEntry] at h
    by_cases hk : k1 = k
    · rw [if_pos hk] at h
      exact absurd h (by simp)
    · rw [if_neg hk] at h
      rw [modifyEntry, if_neg hk, Contents.append, ih h]

theorem lookup_append_singleton_of_none (m : Contents) (k : Str) (v : OscNode)
    (h : lookupEntry m k = Option.none) :
    lookupEntry (Contents.append m (.cons k v .nil)) k = some v := by
  induction m using Contents.minduct with
  | h0 => simp [Contents.append, lookupEntry]
  | h1 k1 v1 rest ih =>
    rw [lookupEntry] at h
    by_cases hk : k1 = k
    · rw [if_pos hk] at h
      exact absurd h (by simp)
    · rw [if_neg hk] at h
      rw [Contents.append, lookupEntry, if_neg hk, ih h]

theorem modifyEntry_modifyEntry (m : Contents) (k : Str) (d d2 : OscNode)
    (f g : OscNode → OscNode) :
    modifyEntry (modifyEntry m k d f) k d2 g
      = modifyEntry m k d (fun v => g (f v)) := by
  induction m using Contents.minduct with
  | h0 => simp [modifyEntry]
  | h1 k1 v1 rest ih =>
    rw [modifyEntry]
    by_cases hk : k1 = k
    · rw [if_pos hk, modifyEntry, if_pos hk, modifyEntry, if_pos hk]
    · rw [if_neg hk, modifyEntry, if_neg hk, modifyEntry, if_neg hk, ih]

theorem modifyEntry_congr (m : Contents) (k : Str) (d : OscNode)
    (f g : OscNode → OscNode) (h : ∀ v, f v = g v) :
    modifyEntry m k d f = modifyEntry m k d g := by
  induction m using Contents.minduct with
  | h0 => simp [modifyEntry, h d]
  | h1 k1 v1 rest ih =>
    rw [modifyEntry, modifyEntry]
    by_cases hk : k1 = k
    · rw [if_pos hk, if_pos hk, h v1]
    · rw [if_neg hk, if_neg hk, ih]

/-! #### Lemmas about the tree operations -/

theorem ensureSegs_idem : ∀ (segs : List Str) (base : Str) (n : OscNode),
    ensureSegs base (ensureSegs base n segs) segs = ensureSegs base n segs := by
  intro segs
  induction segs with
  | nil => intro base n; rfl
  | cons s rest ih =>
    intro base n
    cases n with
    | mk fp a t v cs =>
      show ensureSegs base
          (OscNode.mk fp a t v
            (modifyEntry cs s (OscNode.new_container (base ++ '/' :: s))
              (fun c => ensureSegs (base ++ '/' :: s) c rest))) (s :: rest)
        = _
      rw [ensureSegs, ensureSegs]
      rw [modifyEntry_modifyEntry]
      rw [modifyEntry_congr _ _ _ _ _ (fun v => ih (base ++ '/' :: s) v)]

theorem getAt_ensureSegs_exists : ∀ (segs : List Str) (base : Str) (n : OscNode),
    ∃ m, getAt (ensureSegs base n segs) segs = some m := by
  intro segs
  induction segs with
  | nil => intro base n; exact ⟨n, rfl⟩
  | cons s rest ih =>
    intro base n
    cases n with
    | mk fp a t v cs =>
      rw [ensureSegs]
      obtain ⟨m, hm⟩ := ih (base ++ '/' :: s)
        ((lookupEntry cs s).getD (OscNode.new_container (base ++ '/' :: s)))
      refine ⟨m, ?_⟩
      rw [getAt]
      rw [show (OscNode.mk fp a t v
          (modifyEntry cs s (OscNode.new_container (base ++ '/' :: s))
            (fun c => ensureSegs (base ++ '/' :: s) c rest))).contents
        = modifyEntry cs s (OscNode.new_container (base ++ '/' :: s))
            (fun c => ensureSegs (base ++ '/' :: s) c rest) from rfl]
      rw [lookup_modifyEntry_self]
      exact hm

theorem getAt_append_one : ∀ (segs : List Str) (n : OscNode) (k : Str),
    getAt n (segs ++ [k])
      = (getAt n segs).bind (fun m => lookupEntry m.contents k) := by
  intro segs
  induction segs with
  | nil =>
    intro n k
    show getAt n [k] = (some n).bind (fun m => lookupEntry m.contents k)
    rw [getAt]
    show (match lookupEntry n.contents k with
      | some c => getAt c []
      | Option.none => Option.none) = lookupEntry n.contents k
    cases lookupEntry n.contents k with
    | none => rfl
    | some c => rfl
  | cons s rest ih =>
    intro n k
    show getAt n (s :: (rest ++ [k])) = _
    rw [getAt, getAt]
    cases lookupEntry n.contents s with
    | none => rfl
    | some c => exact ih c k

theorem getAt_updateAt : ∀ (segs : List Str) (n : OscNode)
    (f : OscNode → OscNode) (m : OscNode), getAt n segs = some m →
    getAt (updateAt n segs f) segs = some (f m) := by
  intro segs
  induction segs with
  | nil =>
    intro n f m h
    rw [getAt] at h
    rw [updateAt, getAt, Option.some_injective _ h]
  | cons s rest ih =>
    intro n f m h
    cases n with
    | mk fp a t v cs =>
      rw [getAt] at h
      rw [updateAt, getAt]
      cases hl : lookupEntry (OscNode.mk fp a t v cs).contents s with
      | none => rw [hl] at h; exact absurd h (by simp)
      | some c =>
        rw [hl] at h
        have hl2 : lookupEntry cs s = some c := hl
        rw [show (OscNode.mk fp a t v
            (mapEntry cs s (fun c => updateAt c rest f))).contents
          = mapEntry cs s (fun c => updateAt c rest f) from rfl]
        rw [lookup_mapEntry_some cs s _ c hl2]
        exact ih c f m h

/-! #### The path invariant and its preservation -/

theorem invAt_full_path (segs : List Str) (n : OscNode) (h : InvAt segs n) :
    n.full_path = joinPath segs := by
  cases h with
  | mk _ a t v cs _ _ => rfl

theorem invAt_new_container (segs : List Str) :
    InvAt segs (OscNode.new_container (joinPath segs)) :=
  InvAt.mk segs (some Access.none) Option.none Option.none .nil
    (fun _ _ h => absurd h id) (fun _ _ h => absurd h id)

theorem invAt_ensureSegs : ∀ (segs2 : List Str), (∀ s ∈ segs2, isSeg s) →
    ∀ (pre : List Str) (n : OscNode), InvAt pre n →
    InvAt pre (ensureSegs (baseOf pre) n segs2) := by
  intro segs2
  induction segs2 with
  | nil =>
    intro _ pre n h
    exact h
  | cons s rest ih =>
    intro hseg pre n h
    cases h with
    | mk _ a t v cs hk hc =>
      rw [ensureSegs]
      have hb : baseOf pre ++ '/' :: s = joinPath (pre ++ [s]) := baseOf_append_seg pre s
      have hb2 : baseOf pre ++ '/' :: s = baseOf (pre ++ [s]) := by
        rw [hb, baseOf_ne_nil (pre ++ [s]) (by simp)]
      have hrest : ∀ x ∈ rest, isSeg x := fun x hx => hseg x (by simp [hx])
      have hinner : ∀ (c : OscNode), InvAt (pre ++ [s]) c →
          InvAt (pre ++ [s]) (ensureSegs (baseOf pre ++ '/' :: s) c rest) := by
        intro c hcinv
        rw [hb2]
        exact ih hrest (pre ++ [s]) c hcinv
      refine InvAt.mk pre a t v _ ?_ ?_
      · intro k c hm
        rcases memKV_modifyEntry _ _ _ _ _ _ hm with hold | ⟨hks, _⟩
        · exact hk k c hold
        · rw [hks]
          exact hseg s (by simp)
      · intro k c hm
        rcases memKV_modifyEntry _ _ _ _ _ _ hm with hold | ⟨hks, hcases⟩
        · exact hc k c hold
        · subst hks
          rcases hcases with hcd | ⟨v0, hv0, hcv⟩
          · rw [hcd]
            refine hinner _ ?_
            rw [hb]
            exact invAt_new_container (pre ++ [k])
          · rw [hcv]
            exact hinner _ (hc k v0 hv0)

theorem invAt_updateAt (f : OscNode → OscNode) :
    ∀ (segs pre : List Str) (n : OscNode), InvAt pre n →
    (∀ m, InvAt (pre ++ segs) m → InvAt (pre ++ segs) (f m)) →
    InvAt pre (updateAt n segs f) := by
  intro segs
  induction segs with
  | nil =>
    intro pre n h hf
    have := hf n (by simpa using h)
    rw [updateAt]
    simpa using this
  | cons s rest ih =>
    intro pre n h hf
    cases h with
    | mk _ a t v cs hk hc =>
      rw [updateAt]
      refine InvAt.mk pre a t v _ ?_ ?_
      · intro k c hm
        rcases memKV_mapEntry _ _ _ _ _ hm with hold | ⟨hks, v0, hv0, hcv⟩
        · exact hk k c hold
        · subst hks
          exact hk k v0 hv0
      · intro k c hm
        rcases memKV_mapEntry _ _ _ _ _ hm with hold | ⟨hks, v0, hv0, hcv⟩
        · exact hc k c hold
        · subst hks
          rw [hcv]
          have hf2 : ∀ m, InvAt ((pre ++ [k]) ++ rest) m →
              InvAt ((pre ++ [k]) ++ rest) (f m) := by
            intro m hm2
            have heq : (pre ++ [k]) ++ rest = pre ++ k :: rest := by simp
            rw [heq] at hm2 ⊢
            exact hf m hm2
          exact ih (pre ++ [k]) v0 (hc k v0 hv0) hf2

theorem invAt_getAt : ∀ (segs pre : List Str) (n m : OscNode),
    InvAt pre n → getAt n segs = some m →
    InvAt (pre ++ segs) m ∧ (∀ s ∈ segs, isSeg s) := by
  intro segs
  induction segs with
  | nil =>
    intro pre n m h hg
    rw [getAt] at hg
    constructor
    · simpa using (Option.some_injective _ hg) ▸ h
    · simp
  | cons s rest ih =>
    intro pre n m h hg
    cases h with
    | mk _ a t v cs hk hc =>
      rw [getAt] at hg
      simp only [OscNode.contents] at hg
      cases hl : lookupEntry cs s with
      | none =>
        rw [hl] at hg
        exact absurd hg (by simp)
      | some c =>
        rw [hl] at hg
        have hmem := lookupEntry_mem cs s c hl
        have hseg := hk s c hmem
        have hci := hc s c hmem
        obtain ⟨hi, hs⟩ := ih (pre ++ [s]) c m hci hg
        constructor
        · rw [show pre ++ s :: rest = (pre ++ [s]) ++ rest by simp]
          exact hi
        · intro x hx
          rcases List.mem_cons.mp hx with hxs | hxr
          · exact hxs ▸ hseg
          · exact hs x hxr

theorem baseOf_nil_eq : baseOf ([] : List Str) = [] := by
  simp [baseOf]

theorem invAt_ensure_path (p : Str) (hp : wfPath p) (r : OscNode)
    (h : InvAt [] r) : InvAt [] (OscNode.ensure_path r p) := by
  obtain ⟨segs, hsegs, rfl⟩ := hp
  by_cases hne : segs = []
  · subst hne
    unfold OscNode.ensure_path
    have hcond : joinPath ([] : List Str) = slashStr := rfl
    rw [if_pos hcond]
    exact h
  · unfold OscNode.ensure_path
    rw [if_neg (joinPath_ne_slash segs hsegs hne),
      trimSlashes_joinPath segs hsegs hne,
      splitSlash_joinSegs segs (fun s hs => (hsegs s hs).2) hne]
    have := invAt_ensureSegs segs hsegs [] r h
    rw [baseOf_nil_eq] at this
    exact this

theorem ensure_path_getAt (r : OscNode) (p : Str) :
    ∃ m, getAt (OscNode.ensure_path r p) (pathSegsOf p) = some m := by
  by_cases hp : p = slashStr
  · subst hp
    refine ⟨r, ?_⟩
    unfold OscNode.ensure_path pathSegsOf
    rw [if_pos rfl, if_pos rfl]
    rfl
  · unfold OscNode.ensure_path pathSegsOf
    rw [if_neg hp, if_neg hp]
    exact getAt_ensureSegs_exists (splitSlash (trimSlashes p)) [] r

theorem joinPath_concat_ne_nil (init : List Str) : joinPath init ≠ [] := by
  simp [joinPath]

theorem joinPath_snoc (init : List Str) (nm : Str) (hinit : init ≠ []) :
    joinPath (init ++ [nm]) = joinPath init ++ '/' :: nm := by
  rw [joinPath, joinPath, joinSegs_snoc init nm hinit]
  simp

theorem parent_path_joinPath (init : List Str) (nm : Str) (hnm : '/' ∉ nm) :
    parent_path (joinPath (init ++ [nm])) = joinPath init := by
  cases init with
  | nil =>
    show parent_path ('/' :: joinSegs [nm]) = _
    rw [joinSegs_single, parent_path_root_child nm hnm]
    rfl
  | cons i0 irest =>
    rw [joinPath_snoc (i0 :: irest) nm (by simp),
      parent_path_concat _ nm (joinPath_concat_ne_nil (i0 :: irest)) hnm]

theorem invAt_add_method (p : Str) (hp : wfMethodPath p) (a : Access) (t : Str)
    (r : OscNode) (h : InvAt [] r) : InvAt [] (OscNode.add_method r p a t) := by
  obtain ⟨segs, hne, hsegs, rfl⟩ := hp
  rcases List.eq_nil_or_concat' segs with hnil | ⟨init, nm, rfl⟩
  · exact absurd hnil hne
  · have hnm : isSeg nm := hsegs nm (by simp)
    have hinit : ∀ s ∈ init, isSeg s := fun s hs => hsegs s (by simp [hs])
    have hparent : parent_path (joinPath (init ++ [nm])) = joinPath init :=
      parent_path_joinPath init nm hnm.2
    have hkey : methodKey (joinPath (init ++ [nm])) = nm :=
      methodKey_joinPath init nm hsegs
    unfold OscNode.add_method
    simp only [hparent, hkey]
    have hroot1 : InvAt [] (OscNode.ensure_path r (joinPath init)) :=
      invAt_ensure_path (joinPath init) ⟨init, hinit, rfl⟩ r h
    rw [pathSegsOf_joinPath init hinit]
    refine invAt_updateAt _ init [] _ hroot1 ?_
    intro m hm
    cases hm with
    | mk _ a2 t2 v2 cs hk hc =>
      refine InvAt.mk _ a2 t2 v2 _ ?_ ?_
      · intro k c hmem
        rcases memKV_insertEntry _ _ _ _ _ hmem with hold | ⟨hks, _⟩
        · exact hk k c hold
        · rw [hks]
          exact hnm
      · intro k c hmem
        rcases memKV_insertEntry _ _ _ _ _ hmem with hold | ⟨hks, hcm⟩
        · exact hc k c hold
        · subst hks
          rw [hcm]
          show InvAt ([] ++ init ++ [k]) (OscNode.new_method (joinPath (init ++ [k])) a t)
          have : InvAt (init ++ [k])
              (OscNode.mk (joinPath (init ++ [k])) (some a) (some t) Option.none .nil) :=
            InvAt.mk (init ++ [k]) (some a) (some t) Option.none .nil
              (fun _ _ hf => absurd hf id) (fun _ _ hf => absurd hf id)
          simpa [OscNode.new_method] using this

theorem invAt_buildTree (ops : List Op) (h : ∀ op ∈ ops, wfOp op) :
    InvAt [] (buildTree ops) := by
  have hstart : InvAt [] (OscNode.new_container slashStr) := invAt_new_container []
  suffices hgen : ∀ (ops2 : List Op) (n : OscNode), (∀ op ∈ ops2, wfOp op) →
      InvAt [] n → InvAt [] (ops2.foldl applyOp n) from hgen ops _ h hstart
  intro ops2
  induction ops2 with
  | nil =>
    intro n _ h2
    exact h2
  | cons op rest ih =>
    intro n hwf h2
    rw [List.foldl_cons]
    refine ih _ (fun o ho => hwf o (by simp [ho])) ?_
    cases op with
    | ensure p => exact invAt_ensure_path p (hwf (Op.ensure p) (by simp)) n h2
    | method p a t =>
      exact invAt_add_method p (hwf (Op.method p a t) (by simp)) a t n h2

/-! #### Step equations for the discovery wait loop -/

theorem loopEq_nil : discover_vrchat_oscquery_loop [] = Option.none := rfl

theorem loopEq_deadline (rest : List RecvOutcome) :
    discover_vrchat_oscquery_loop (RecvOutcome.deadlineReached :: rest)
      = some ⟨Except.error OscQueryError.discoveryTimeout, true⟩ := rfl

theorem loopEq_timeout (rest : List RecvOutcome) :
    discover_vrchat_oscquery_loop (RecvOutcome.recvTimeout :: rest)
      = some ⟨Except.error OscQueryError.discoveryTimeout, true⟩ := rfl

theorem loopEq_closed (rest : List RecvOutcome) :
    discover_vrchat_oscquery_loop (RecvOutcome.recvClosed :: rest)
      = some ⟨Except.error OscQueryError.discoveryChannelClosed, true⟩ := rfl

theorem loopEq_other (rest : List RecvOutcome) :
    discover_vrchat_oscquery_loop
        (RecvOutcome.received ServiceEventM.otherEvent :: rest)
      = discover_vrchat_oscquery_loop rest := rfl

theorem loopEq_resolved_match (info : ServiceInfoM) (rest : List RecvOutcome)
    (h : matchesTarget info = true) :
    discover_vrchat_oscquery_loop
        (RecvOutcome.received (ServiceEventM.serviceResolved info) :: rest)
      = some ⟨Except.ok (resolveService info), true⟩ := by
  simp [discover_vrchat_oscquery_loop, h]

theorem loopEq_resolved_no (info : ServiceInfoM) (rest : List RecvOutcome)
    (h : matchesTarget info = false) :
    discover_vrchat_oscquery_loop
        (RecvOutcome.received (ServiceEventM.serviceResolved info) :: rest)
      = discover_vrchat_oscquery_loop rest := by
  simp [discover_vrchat_oscquery_loop, h]

theorem loop_skip (pre tail : List RecvOutcome) (h : ∀ x ∈ pre, ignoredOutcome x) :
    discover_vrchat_oscquery_loop (pre ++ tail)
      = discover_vrchat_oscquery_loop tail := by
  induction pre with
  | nil => rfl
  | cons x pre2 ih =>
    have hx := h x (by simp)
    have hrest := fun y hy => h y (List.mem_cons_of_mem _ hy)
    cases x with
    | deadlineReached => exact absurd hx id
    | recvTimeout => exact absurd hx id
    | recvClosed => exact absurd hx id
    | received e =>
      cases e with
      | serviceResolved info =>
        have hm : matchesTarget info = false := hx
        rw [List.cons_append, loopEq_resolved_no info _ hm, ih hrest]
      | otherEvent => rw [List.cons_append, loopEq_other, ih hrest]

/-! #### Claim theorems -/

/-- C1: for every tree built from a fresh root `"/"` by `ensure_path` and
`add_method` with well-formed absolute paths, every reachable node's
`full_path` is the root's path concatenated with the child keys walked to
reach it, a node with full path P exists iff the position at P's segments is
occupied, and on a fresh root `ensure_path "/a/b/c"` creates container nodes
at exactly `"/a"`, `"/a/b"` and `"/a/b/c"` and nothing else. -/
theorem C1_tree_path_invariant (ops : List Op) (hwf : ∀ op ∈ ops, wfOp op) :
    (∀ (segs : List Str) (n : OscNode), getAt (buildTree ops) segs = some n →
      (∀ s ∈ segs, isSeg s) ∧ n.full_path = joinPath segs) ∧
    (∀ P : Str, wfPath P →
      ((∃ (segs : List Str) (n : OscNode), getAt (buildTree ops) segs = some n ∧
          n.full_path = P) ↔ (getAt (buildTree ops) (pathSegsOf P)).isSome = true)) ∧
    OscNode.ensure_path (OscNode.new_container slashStr) ("/a/b/c".data)
      = OscNode.mk slashStr (some Access.none) Option.none Option.none
          (.cons ("a".data)
            (OscNode.mk ("/a".data) (some Access.none) Option.none Option.none
              (.cons ("b".data)
                (OscNode.mk ("/a/b".data) (some Access.none) Option.none Option.none
                  (.cons ("c".data) (OscNode.new_container ("/a/b/c".data)) .nil))
                .nil))
            .nil) := by
  have hinv := invAt_buildTree ops hwf
  refine ⟨?_, ?_, by rfl⟩
  · intro segs n hg
    obtain ⟨hi, hs⟩ := invAt_getAt segs [] (buildTree ops) n hinv hg
    refine ⟨hs, ?_⟩
    simpa using invAt_full_path _ _ hi
  · intro P hP
    obtain ⟨segsP, hsegsP, rfl⟩ := hP
    constructor
    · rintro ⟨segs, n, hg, hfp⟩
      obtain ⟨hi, hs⟩ := invAt_getAt segs [] _ n hinv hg
      have hfull : n.full_path = joinPath segs := by
        simpa using invAt_full_path _ _ hi
      have hse : segs = segsP :=
        joinPath_inj segs segsP hs hsegsP (hfull.symm.trans hfp)
      rw [pathSegsOf_joinPath segsP hsegsP, ← hse, hg]
      rfl
    · intro hsome
      rw [pathSegsOf_joinPath segsP hsegsP] at hsome
      obtain ⟨n, hn⟩ := Option.isSome_iff_exists.mp hsome
      refine ⟨segsP, n, hn, ?_⟩
      obtain ⟨hi, _⟩ := invAt_getAt segsP [] _ n hinv hn
      simpa using invAt_full_path _ _ hi

/-- Witness for C1 at the concrete operation list `[ensure_path "/a"]` and
the position `["a"]`. -/
theorem C1_tree_path_invariant_witness :
    (∀ op ∈ [Op.ensure ("/a".data)], wfOp op) ∧
    ((∀ s ∈ [("a".data)], isSeg s) ∧
      (OscNode.new_container ("/a".data)).full_path = joinPath [("a".data)]) := by
  have hwf : ∀ op ∈ [Op.ensure ("/a".data)], wfOp op := by
    intro op hop
    have : op = Op.ensure ("/a".data) := by simpa using hop
    rw [this]
    refine ⟨[("a".data)], ?_, rfl⟩
    intro s hs
    have hsa : s = "a".data := by simpa using hs
    rw [hsa]
    exact ⟨by decide, by decide⟩
  exact ⟨hwf, (C1_tree_path_invariant [Op.ensure ("/a".data)] hwf).1
    [("a".data)] (OscNode.new_container ("/a".data)) rfl⟩

/-- C2 counterexample: applying `ensure_path` a second time to the node
returned by the first call (here, the node at `"/a"`), with the same path
`"/a"`, does not leave the tree unchanged: it creates a spurious node at
position `["a", "a"]`, so the resulting tree differs from the tree after one
call. -/
theorem C2_counterexample :
    getAt (updateAt (OscNode.ensure_path (OscNode.new_container slashStr) ("/a".data))
        (pathSegsOf ("/a".data)) (fun n => OscNode.ensure_path n ("/a".data)))
      [("a".data), ("a".data)] = some (OscNode.new_container ("/a".data)) ∧
    getAt (OscNode.ensure_path (OscNode.new_container slashStr) ("/a".data))
      [("a".data), ("a".data)] = Option.none ∧
    updateAt (OscNode.ensure_path (OscNode.new_container slashStr) ("/a".data))
        (pathSegsOf ("/a".data)) (fun n => OscNode.ensure_path n ("/a".data))
      ≠ OscNode.ensure_path (OscNode.new_container slashStr) ("/a".data) := by
  refine ⟨rfl, rfl, ?_⟩
  intro he
  have h1 : getAt (updateAt (OscNode.ensure_path (OscNode.new_container slashStr)
        ("/a".data)) (pathSegsOf ("/a".data)) (fun n => OscNode.ensure_path n ("/a".data)))
      [("a".data), ("a".data)] = some (OscNode.new_container ("/a".data)) := rfl
  rw [he] at h1
  have h2 : getAt (OscNode.ensure_path (OscNode.new_container slashStr) ("/a".data))
      [("a".data), ("a".data)] = Option.none := rfl
  rw [h2] at h1
  exact Option.noConfusion h1

/-- C2 amended: calling `ensure_path` twice on the same root with the same
path yields a tree identical to the tree after one call (so the second call
returns the same node and alters no siblings). -/
theorem C2_ensure_path_idempotent (root : OscNode) (P : Str) :
    OscNode.ensure_path (OscNode.ensure_path root P) P
      = OscNode.ensure_path root P := by
  unfold OscNode.ensure_path
  by_cases hp : P = slashStr
  · simp [hp]
  · simp only [if_neg hp]
    exact ensureSegs_idem _ _ _

/-- C4: `add_method` at any path replaces whatever entry existed at that
exact position wholesale by a fresh method node: afterwards the position
holds exactly `new_method path access typetag`, whose children map is empty
(so a previously existing container's children are dropped, not merged), and
no error is possible (the function is total). -/
theorem C4_add_method_overwrites (root : OscNode) (p : Str) (a : Access) (t : Str) :
    getAt (OscNode.add_method root p a t)
        (pathSegsOf (parent_path p) ++ [methodKey p])
      = some (OscNode.new_method p a t) ∧
    (OscNode.new_method p a t).contents = Contents.nil := by
  refine ⟨?_, rfl⟩
  simp only [OscNode.add_method]
  obtain ⟨m, hm⟩ := ensure_path_getAt root (parent_path p)
  rw [getAt_append_one]
  rw [getAt_updateAt (pathSegsOf (parent_path p)) _ _ m hm]
  cases m with
  | mk fp a2 t2 v2 cs =>
    show lookupEntry (insertEntry cs (methodKey p) (OscNode.new_method p a t))
        (methodKey p) = some (OscNode.new_method p a t)
    exact lookup_insertEntry_self cs (methodKey p) _

theorem dropWhile_isSlash_all : ∀ (p : Str), (∀ c ∈ p, c = '/') →
    p.dropWhile isSlash = [] := by
  intro p
  induction p with
  | nil => intro _; rfl
  | cons c rest ih =>
    intro hall
    have hc : c = '/' := hall c (by simp)
    subst hc
    rw [List.dropWhile_cons, if_pos (by simp [isSlash])]
    exact ih (fun x hx => hall x (by simp [hx]))

/-- C10: for an input path that is not `"/"` but consists only of slashes
(such as `""` or `"//"`), `ensure_path` does not leave the root unchanged:
it appends to the root's children exactly one entry keyed by the empty
string whose node is a fresh container with full path `"/"`, and the
returned reference denotes that child. -/
theorem C10_all_slash_paths (fp : Str) (a : Option Access) (t : Option Str)
    (v : Option Json) (cs : Contents) (p : Str)
    (hne : p ≠ slashStr) (hall : ∀ c ∈ p, c = '/')
    (hfree : lookupEntry cs [] = Option.none) :
    OscNode.ensure_path (OscNode.mk fp a t v cs) p
      = OscNode.mk fp a t v
          (Contents.append cs (.cons [] (OscNode.new_container slashStr) .nil)) ∧
    getAt (OscNode.ensure_path (OscNode.mk fp a t v cs) p) (pathSegsOf p)
      = some (OscNode.new_container slashStr) := by
  have hdrop : p.dropWhile isSlash = [] := dropWhile_isSlash_all p hall
  have htrim : trimSlashes p = [] := by
    unfold trimSlashes
    rw [hdrop]
    rfl
  have hsplit : splitSlash (trimSlashes p) = [[]] := by
    rw [htrim]
    rfl
  have hsegs : pathSegsOf p = [[]] := by
    unfold pathSegsOf
    rw [if_neg hne, hsplit]
  have h1 : OscNode.ensure_path (OscNode.mk fp a t v cs) p
      = OscNode.mk fp a t v
          (Contents.append cs (.cons [] (OscNode.new_container slashStr) .nil)) := by
    unfold OscNode.ensure_path
    rw [if_neg hne, hsplit]
    show OscNode.mk fp a t v
        (modifyEntry cs [] (OscNode.new_container ([] ++ '/' :: []))
          (fun c => ensureSegs ([] ++ '/' :: []) c [])) = _
    rw [modifyEntry_of_lookup_none cs [] _ _ hfree]
    rfl
  refine ⟨h1, ?_⟩
  rw [h1, hsegs, getAt]
  show (match lookupEntry (Contents.append cs
      (.cons [] (OscNode.new_container slashStr) .nil)) [] with
    | some c => getAt c []
    | Option.none => Option.none) = some (OscNode.new_container slashStr)
  rw [lookup_append_singleton_of_none cs [] _ hfree]
  rfl

/-- Witness for C10 at the empty-string path on a fresh root. -/
theorem C10_all_slash_paths_witness :
    (([] : Str) ≠ slashStr) ∧
    OscNode.ensure_path (OscNode.new_container slashStr) []
      = OscNode.mk slashStr (some Access.none) Option.none Option.none
          (.cons [] (OscNode.new_container slashStr) .nil) := by
  refine ⟨by decide, ?_⟩
  have h := (C10_all_slash_paths slashStr (some Access.none) Option.none Option.none
    Contents.nil [] (by decide) (by simp) rfl).1
  exact h

/-- C3 counterexample: the claim's leaf rule (leaf name = substring after the
final `/`, here computed by `lastSeg` on the raw path) fails on the path
`"/a/"`: that substring is `""`, yet `add_method` inserts nothing keyed `""`
— it keys the method node by `"a"` (the last segment after trimming
slashes). -/
theorem C3_counterexample :
    lastSeg ("/a/".data) = [] ∧
    getAt (OscNode.add_method (OscNode.new_container slashStr) ("/a/".data)
        Access.readWrite ("f".data)) [("a".data), []] = Option.none ∧
    getAt (OscNode.add_method (OscNode.new_container slashStr) ("/a/".data)
        Access.readWrite ("f".data)) [("a".data), ("a".data)]
      = some (OscNode.new_method ("/a/".data) Access.readWrite ("f".data)) := by
  exact ⟨rfl, rfl, rfl⟩

/-- C3 amended: `add_method` splits the path so that the parent path is
everything before the final `/` when that slash is not at position 0 (and
`"/"` when it is at position 0 or absent), and the leaf key equals the
substring after the final `/` (`lastSeg`) for every path that does not end
in a slash (for trailing-slash paths the leaf is instead the last segment of
the slash-trimmed path); `add_method(root, "/avatar/parameters/Foo",
ReadWrite, "f")` on a fresh root produces exactly a method node at that path
with type tag `"f"` and access ReadWrite below fresh ancestor containers
`/avatar` and `/avatar/parameters` with access `None` and no type tag. -/
theorem C3_add_method_split :
    (∀ p : Str, endsInSlash p = false → methodKey p = lastSeg p) ∧
    (∀ p : Str, '/' ∉ p → parent_path p = slashStr) ∧
    (∀ b : Str, '/' ∉ b → parent_path ('/' :: b) = slashStr) ∧
    (∀ a b : Str, a ≠ [] → '/' ∉ b → parent_path (a ++ '/' :: b) = a) ∧
    OscNode.add_method (OscNode.new_container slashStr)
        ("/avatar/parameters/Foo".data) Access.readWrite ("f".data)
      = OscNode.mk slashStr (some Access.none) Option.none Option.none
          (.cons ("avatar".data)
            (OscNode.mk ("/avatar".data) (some Access.none) Option.none Option.none
              (.cons ("parameters".data)
                (OscNode.mk ("/avatar/parameters".data) (some Access.none)
                  Option.none Option.none
                  (.cons ("Foo".data)
                    (OscNode.new_method ("/avatar/parameters/Foo".data)
                      Access.readWrite ("f".data))
                    .nil))
                .nil))
            .nil) :=
  ⟨methodKey_no_trailing, parent_path_no_slash, parent_path_root_child,
    parent_path_concat, rfl⟩

/-- Witness for C3 at the concrete path `"/x/y"` (and leaf rule inputs). -/
theorem C3_add_method_split_witness :
    endsInSlash ("/x/y".data) = false ∧
    methodKey ("/x/y".data) = lastSeg ("/x/y".data) ∧
    (('/' : Char) ∉ ("y".data)) ∧
    parent_path ('/' :: ("y".data)) = slashStr ∧
    parent_path (("/x".data) ++ '/' :: ("y".data)) = "/x".data := by
  refine ⟨by decide, C3_add_method_split.1 ("/x/y".data) (by decide), by decide,
    C3_add_method_split.2.2.1 ("y".data) (by decide),
    C3_add_method_split.2.2.2.1 ("/x".data) ("y".data) (by decide) (by decide)⟩

theorem keysOf_nodeToJson (fp : Str) (a : Option Access) (t : Option Str)
    (v : Option Json) (cs : Contents) :
    keysOf (nodeToJson (OscNode.mk fp a t v cs))
      = ("FULL_PATH".data) ::
          ((accessFields a).keys ++ (typeFields t).keys ++ (valueFields v).keys
            ++ (if cs.isEmpty then [] else [("CONTENTS".data)])) := by
  cases a <;> cases t <;> cases v <;> cases cs <;> rfl

/-- C5: serde serialization of a node always emits `FULL_PATH`; it emits
`ACCESS` (as its numeric value, which is at most 3) exactly when the access
option is present, `TYPE` exactly when the type tag is present, `VALUE`
exactly when the value is present, and `CONTENTS` exactly when the children
map is nonempty — absent fields are omitted entirely, never emitted as
null; and the root `"/"` container with the single child `"avatar"` renders
to exactly the claimed JSON text. -/
theorem C5_node_serialization (fp : Str) (a : Option Access) (t : Option Str)
    (v : Option Json) (cs : Contents) :
    ("FULL_PATH".data) ∈ keysOf (nodeToJson (OscNode.mk fp a t v cs)) ∧
    (("ACCESS".data) ∈ keysOf (nodeToJson (OscNode.mk fp a t v cs))
      ↔ a.isSome = true) ∧
    (("TYPE".data) ∈ keysOf (nodeToJson (OscNode.mk fp a t v cs))
      ↔ t.isSome = true) ∧
    (("VALUE".data) ∈ keysOf (nodeToJson (OscNode.mk fp a t v cs))
      ↔ v.isSome = true) ∧
    (("CONTENTS".data) ∈ keysOf (nodeToJson (OscNode.mk fp a t v cs))
      ↔ cs.isEmpty = false) ∧
    (∀ acc, a = some acc →
      JFields.MemKV ("ACCESS".data) (Json.num acc.toNat)
        (fieldsOf (nodeToJson (OscNode.mk fp a t v cs))) ∧ acc.toNat ≤ 3) ∧
    renderJson (nodeToJson
        (OscNode.ensure_path (OscNode.new_container slashStr) ("/avatar".data)))
      = "\x7b\"FULL_PATH\":\"/\",\"ACCESS\":0,\"CONTENTS\":\x7b\"avatar\":\x7b\"FULL_PATH\":\"/avatar\",\"ACCESS\":0\x7d\x7d\x7d".data := by
  refine ⟨?_, ?_, ?_, ?_, ?_, ?_, by decide⟩
  · rw [keysOf_nodeToJson]
    exact List.mem_cons_self _ _
  · rw [keysOf_nodeToJson]
    cases a <;> cases t <;> cases v <;> cases cs <;>
      simp [accessFields, typeFields, valueFields, JFields.keys, Contents.isEmpty]
  · rw [keysOf_nodeToJson]
    cases a <;> cases t <;> cases v <;> cases cs <;>
      simp [accessFields, typeFields, valueFields, JFields.keys, Contents.isEmpty]
  · rw [keysOf_nodeToJson]
    cases a <;> cases t <;> cases v <;> cases cs <;>
      simp [accessFields, typeFields, valueFields, JFields.keys, Contents.isEmpty]
  · rw [keysOf_nodeToJson]
    cases a <;> cases t <;> cases v <;> cases cs <;>
      simp [accessFields, typeFields, valueFields, JFields.keys, Contents.isEmpty]
  · intro acc ha
    subst ha
    refine ⟨Or.inr (Or.inl ⟨rfl, rfl⟩), ?_⟩
    cases acc <;> decide

/-- Witness for C5 at a concrete method node. -/
theorem C5_node_serialization_witness :
    (("ACCESS".data) ∈ keysOf (nodeToJson (OscNode.mk ("/x".data)
        (some Access.readWrite) (some ("f".data)) Option.none .nil))
      ↔ (some Access.readWrite).isSome = true) ∧
    JFields.MemKV ("ACCESS".data) (Json.num Access.readWrite.toNat)
      (fieldsOf (nodeToJson (OscNode.mk ("/x".data) (some Access.readWrite)
        (some ("f".data)) Option.none .nil))) ∧
    Access.readWrite.toNat ≤ 3 := by
  refine ⟨(C5_node_serialization ("/x".data) (some Access.readWrite)
      (some ("f".data)) Option.none .nil).2.1, ?_, ?_⟩
  · exact ((C5_node_serialization ("/x".data) (some Access.readWrite)
      (some ("f".data)) Option.none .nil).2.2.2.2.2.1 Access.readWrite rfl).1
  · exact ((C5_node_serialization ("/x".data) (some Access.readWrite)
      (some ("f".data)) Option.none .nil).2.2.2.2.2.1 Access.readWrite rfl).2

/-- C6: when, after any number of ignored outcomes (received events that are
not resolved services matching both predicates), the loop receives a
resolved-service event whose service type equals `"_oscjson._tcp.local."`
and whose full name starts with `"VRChat-Client-"`, it returns Ok carrying
that event's full name, host name, port, and first IPv4 address — the
loopback address when the service reports none. -/
theorem C6_discover_success (pre : List RecvOutcome) (info : ServiceInfoM)
    (rest : List RecvOutcome) (hpre : ∀ x ∈ pre, ignoredOutcome x)
    (hmatch : matchesTarget info = true) :
    discover_vrchat_oscquery_loop
        (pre ++ RecvOutcome.received (ServiceEventM.serviceResolved info) :: rest)
      = some ⟨Except.ok ⟨info.fullname, info.host,
          info.addrs_v4.headD localhostV4, info.port⟩, true⟩ ∧
    (info.addrs_v4 = [] → info.addrs_v4.headD localhostV4 = localhostV4) := by
  refine ⟨?_, fun h => by rw [h]; rfl⟩
  rw [loop_skip pre _ hpre, loopEq_resolved_match info rest hmatch]
  rfl

/-- Witness for C6: a matching resolved event with no IPv4 address, after
one ignored event, yields Ok with the loopback address. -/
theorem C6_discover_success_witness :
    matchesTarget ⟨"_oscjson._tcp.local.".data,
        "VRChat-Client-ABC123._oscjson._tcp.local.".data,
        "vrchat-client.local.".data, [], 9001⟩ = true ∧
    discover_vrchat_oscquery_loop
        [RecvOutcome.received ServiceEventM.otherEvent,
         RecvOutcome.received (ServiceEventM.serviceResolved
           ⟨"_oscjson._tcp.local.".data,
            "VRChat-Client-ABC123._oscjson._tcp.local.".data,
            "vrchat-client.local.".data, [], 9001⟩)]
      = some ⟨Except.ok ⟨"VRChat-Client-ABC123._oscjson._tcp.local.".data,
          "vrchat-client.local.".data, localhostV4, 9001⟩, true⟩ := by
  refine ⟨by decide, ?_⟩
  have h := (C6_discover_success [RecvOutcome.received ServiceEventM.otherEvent]
    ⟨"_oscjson._tcp.local.".data,
     "VRChat-Client-ABC123._oscjson._tcp.local.".data,
     "vrchat-client.local.".data, [], 9001⟩ []
    (by intro x hx; have hx2 : x = RecvOutcome.received ServiceEventM.otherEvent := by
          simpa using hx
        rw [hx2]; trivial)
    (by decide)).1
  exact h

/-- C7: every value the wait loop returns — success or either failure — was
produced on a path that called `mdns.shutdown()` first; no return path
leaves the daemon and its browse subscription running. -/
theorem C7_discover_shutdown (stream : List RecvOutcome) (r : DiscReturn)
    (h : discover_vrchat_oscquery_loop stream = some r) :
    r.shutdownCalled = true := by
  induction stream with
  | nil => exact absurd (loopEq_nil ▸ h) (by simp)
  | cons x rest ih =>
    cases x with
    | deadlineReached =>
      rw [loopEq_deadline] at h
      rw [← Option.some_injective _ h]
    | recvTimeout =>
      rw [loopEq_timeout] at h
      rw [← Option.some_injective _ h]
    | recvClosed =>
      rw [loopEq_closed] at h
      rw [← Option.some_injective _ h]
    | received e =>
      cases e with
      | otherEvent => exact ih (loopEq_other rest ▸ h)
      | serviceResolved info =>
        cases hm : matchesTarget info with
        | true =>
          rw [loopEq_resolved_match info rest hm] at h
          rw [← Option.some_injective _ h]
        | false => exact ih (loopEq_resolved_no info rest hm ▸ h)

/-- Witness for C7 on the one-outcome stream whose deadline is reached. -/
theorem C7_discover_shutdown_witness :
    (⟨Except.error OscQueryError.discoveryTimeout, true⟩ : DiscReturn).shutdownCalled
      = true :=
  C7_discover_shutdown [RecvOutcome.deadlineReached]
    ⟨Except.error OscQueryError.discoveryTimeout, true⟩ rfl

/-- C8: after any number of ignored outcomes, reaching the deadline or the
bounded wait timing out makes the loop fail with exactly `DiscoveryTimeout`,
while the event channel closing makes it fail with exactly
`DiscoveryChannelClosed`; and these two are the only errors any run of the
wait loop can produce (never `Mdns` or `Json`). -/
theorem C8_discover_errors :
    (∀ (pre rest : List RecvOutcome), (∀ x ∈ pre, ignoredOutcome x) →
      discover_vrchat_oscquery_loop (pre ++ RecvOutcome.deadlineReached :: rest)
        = some ⟨Except.error OscQueryError.discoveryTimeout, true⟩) ∧
    (∀ (pre rest : List RecvOutcome), (∀ x ∈ pre, ignoredOutcome x) →
      discover_vrchat_oscquery_loop (pre ++ RecvOutcome.recvTimeout :: rest)
        = some ⟨Except.error OscQueryError.discoveryTimeout, true⟩) ∧
    (∀ (pre rest : List RecvOutcome), (∀ x ∈ pre, ignoredOutcome x) →
      discover_vrchat_oscquery_loop (pre ++ RecvOutcome.recvClosed :: rest)
        = some ⟨Except.error OscQueryError.discoveryChannelClosed, true⟩) ∧
    (∀ (stream : List RecvOutcome) (e : OscQueryError) (b : Bool),
      discover_vrchat_oscquery_loop stream = some ⟨Except.error e, b⟩ →
      e = OscQueryError.discoveryTimeout ∨ e = OscQueryError.discoveryChannelClosed) := by
  refine ⟨?_, ?_, ?_, ?_⟩
  · intro pre rest hpre
    rw [loop_skip pre _ hpre, loopEq_deadline]
  · intro pre rest hpre
    rw [loop_skip pre _ hpre, loopEq_timeout]
  · intro pre rest hpre
    rw [loop_skip pre _ hpre, loopEq_closed]
  · intro stream
    induction stream with
    | nil =>
      intro e b h
      exact absurd (loopEq_nil ▸ h) (by simp)
    | cons x rest ih =>
      intro e b h
      cases x with
      | deadlineReached =>
        rw [loopEq_deadline] at h
        have h3 := congrArg DiscReturn.result (Option.some_injective _ h)
        injection h3 with h4
        exact Or.inl h4.symm
      | recvTimeout =>
        rw [loopEq_timeout] at h
        have h3 := congrArg DiscReturn.result (Option.some_injective _ h)
        injection h3 with h4
        exact Or.inl h4.symm
      | recvClosed =>
        rw [loopEq_closed] at h
        have h3 := congrArg DiscReturn.result (Option.some_injective _ h)
        injection h3 with h4
        exact Or.inr h4.symm
      | received ev =>
        cases ev with
        | otherEvent => exact ih e b (loopEq_other rest ▸ h)
        | serviceResolved info =>
          cases hm : matchesTarget info with
          | true =>
            rw [loopEq_resolved_match info rest hm] at h
            have h3 := congrArg DiscReturn.result (Option.some_injective _ h)
            exact Except.noConfusion h3
          | false => exact ih e b (loopEq_resolved_no info rest hm ▸ h)

/-- Witness for C8: concrete one-outcome streams for each error, and the
error-classification clause applied to the closed-channel stream. -/
theorem C8_discover_errors_witness :
    discover_vrchat_oscquery_loop [RecvOutcome.deadlineReached]
      = some ⟨Except.error OscQueryError.discoveryTimeout, true⟩ ∧
    discover_vrchat_oscquery_loop [RecvOutcome.recvClosed]
      = some ⟨Except.error OscQueryError.discoveryChannelClosed, true⟩ ∧
    (OscQueryError.discoveryChannelClosed = OscQueryError.discoveryTimeout ∨
      OscQueryError.discoveryChannelClosed = OscQueryError.discoveryChannelClosed) := by
  refine ⟨?_, ?_, ?_⟩
  · exact C8_discover_errors.1 [] [] (by intro x hx; simp at hx)
  · exact C8_discover_errors.2.2.1 [] [] (by intro x hx; simp at hx)
  · exact C8_discover_errors.2.2.2 [RecvOutcome.recvClosed]
      OscQueryError.discoveryChannelClosed true rfl

/-- C9: every inbound request is answered with status 200 and Content-Type
`application/json`; when the query string (empty if absent) equals
`HOST_INFO` under ASCII-case-insensitive comparison the body is the
JSON-encoded `HostInfo`, and for every other query it is the JSON-encoded
current namespace-tree snapshot; no other status is ever produced. -/
theorem C9_handle_request_responds (q : Option Str) (hi : HostInfo)
    (root : OscNode) :
    (handle_request q hi root).status = 200 ∧
    (handle_request q hi root).contentType = "application/json".data ∧
    ((q.getD []).map asciiLower = ("host_info".data) →
      (handle_request q hi root).body = renderJson (hostInfoToJson hi)) ∧
    ((q.getD []).map asciiLower ≠ ("host_info".data) →
      (handle_request q hi root).body = renderJson (nodeToJson root)) := by
  have hHI : ("HOST_INFO".data).map asciiLower = "host_info".data := by decide
  by_cases hq : eqIgnoreAsciiCase (q.getD []) ("HOST_INFO".data) = true
  · have hmap : (q.getD []).map asciiLower = "host_info".data := by
      have := of_decide_eq_true hq
      rw [this, hHI]
    refine ⟨?_, ?_, fun _ => ?_, fun hne => absurd hmap hne⟩ <;>
      simp [handle_request, hq]
  · have hq2 : eqIgnoreAsciiCase (q.getD []) ("HOST_INFO".data) = false := by
      cases hb : eqIgnoreAsciiCase (q.getD []) ("HOST_INFO".data)
      · rfl
      · exact absurd hb hq
    have hmap : (q.getD []).map asciiLower ≠ "host_info".data := by
      intro he
      have : eqIgnoreAsciiCase (q.getD []) ("HOST_INFO".data) = true := by
        unfold eqIgnoreAsciiCase
        rw [he, hHI]
        simp
      rw [this] at hq2
      exact absurd hq2 (by simp)
    refine ⟨?_, ?_, fun he => absurd he hmap, fun _ => ?_⟩ <;>
      simp [handle_request, hq2]

/-- Witness for C9 at a mixed-case `HOST_INFO` query on a concrete state. -/
theorem C9_handle_request_responds_witness :
    (handle_request (some ("Host_Info".data))
        ⟨"app".data, "127.0.0.1".data, 9000, "UDP".data, Json.obj .nil⟩
        (OscNode.new_container slashStr)).status = 200 ∧
    ((some ("Host_Info".data)).getD []).map asciiLower = ("host_info".data) ∧
    (handle_request (some ("Host_Info".data))
        ⟨"app".data, "127.0.0.1".data, 9000, "UDP".data, Json.obj .nil⟩
        (OscNode.new_container slashStr)).body
      = renderJson (hostInfoToJson
          ⟨"app".data, "127.0.0.1".data, 9000, "UDP".data, Json.obj .nil⟩) := by
  refine ⟨(C9_handle_request_responds (some ("Host_Info".data)) _ _).1, by decide, ?_⟩
  exact (C9_handle_request_responds (some ("Host_Info".data))
    ⟨"app".data, "127.0.0.1".data, 9000, "UDP".data, Json.obj .nil⟩
    (OscNode.new_container slashStr)).2.2.1 (by decide)

end VrcOscQuery
